import Mathlib

/-!
A verification development for the `syft-reviewer-allowlist` repository.

The Python sources (`backend/utils.py`, `src/syft_reviewer_allowlist/app.py`)
are embedded shallowly:

* Python strings are Lean `String`s (in this toolchain a `String` is a
  structure wrapping `List Char`, so all string operations reduce in the
  kernel when we define them ourselves over `List Char`).
* Python dicts keyed by strings are association lists `List (String × α)`;
  a directory of one-file-per-record on disk is likewise modelled as an
  association list from the file's key (email-derived filename, or the
  signature hex string) to the parsed record.  A filesystem write that
  creates-or-overwrites one file is `fs_write`.
* Values coming from the environment (the current `str(Path().absolute())`
  marker the source stores in `stored_at` / `marked_as_trusted_at` fields,
  the `datetime.now().isoformat()` timestamp, the outcome of the external
  `job.approve(...)` call) are passed in as explicit parameters.
* Fallible operations return an outcome value instead of raising
  `HTTPException`.
-/

/-! ## Python string primitives -/

/-- The whitespace characters stripped by Python's `str.strip()` (the ASCII
ones; exotic Unicode whitespace is not modelled). -/
def pyIsSpace (c : Char) : Bool :=
  c == ' ' || c == '\t' || c == '\n' || c == '\r' || c == '\x0b' || c == '\x0c'

/-- Python's `str.strip()`: drop leading and trailing whitespace. -/
def pyStrip (s : String) : String :=
  ⟨((s.data.dropWhile pyIsSpace).reverse.dropWhile pyIsSpace).reverse⟩

/-- `listStartsWith pat s` is true when `pat` is a prefix of `s`. -/
def listStartsWith : List Char → List Char → Bool
  | [], _ => true
  | _ :: _, [] => false
  | p :: ps, c :: cs => p == c && listStartsWith ps cs

/-- `hasSub pat s` is true when `pat` occurs as a contiguous substring of
`s` (Python's `pat in s`). -/
def hasSub (pat : List Char) : List Char → Bool
  | [] => listStartsWith pat []
  | c :: cs => listStartsWith pat (c :: cs) || hasSub pat cs

/-- The scanning loop of Python's `str.replace`: scan left to right; at a
position where `pat` matches, emit `repl` and continue after the match
(replaced text is not re-scanned); otherwise emit one character.  `fuel`
bounds the recursion; `fuel = s.length` is always enough because every step
consumes at least one character of `s`. -/
def replaceFuel (pat repl : List Char) : Nat → List Char → List Char
  | _, [] => []
  | 0, s => s
  | n + 1, c :: cs =>
    if listStartsWith pat (c :: cs) then
      repl ++ replaceFuel pat repl n ((c :: cs).drop pat.length)
    else
      c :: replaceFuel pat repl n cs

/-- Python's `s.replace(pat, repl)` for a non-empty pattern (the sources
only ever call `replace` with non-empty patterns; for an empty pattern we
return `s` unchanged). -/
def pyReplace (s pat repl : String) : String :=
  if pat.data.isEmpty then s
  else ⟨replaceFuel pat.data repl.data s.data.length s.data⟩

/-! ## JSON serialization (as produced by `json.dumps(..., sort_keys=True,
separators=(',', ':'))`, with the default `ensure_ascii=True`) -/

/-- Lowercase hexadecimal digit. -/
def hexDigitChar (n : Nat) : Char :=
  if n < 10 then Char.ofNat (48 + n) else Char.ofNat (87 + n)

/-- A `\uXXXX` escape for a 16-bit value, lowercase hex. -/
def uEscape (n : Nat) : List Char :=
  ['\\', 'u', hexDigitChar (n / 4096 % 16), hexDigitChar (n / 256 % 16),
   hexDigitChar (n / 16 % 16), hexDigitChar (n % 16)]

/-- Escaping of one character inside a JSON string literal, following
Python's `json.dumps` with `ensure_ascii=True`. -/
def jsonEscapeChar (c : Char) : List Char :=
  if c = '"' then ['\\', '"']
  else if c = '\\' then ['\\', '\\']
  else if c = '\n' then ['\\', 'n']
  else if c = '\t' then ['\\', 't']
  else if c = '\r' then ['\\', 'r']
  else if c = '\x08' then ['\\', 'b']
  else if c = '\x0c' then ['\\', 'f']
  else if c.toNat < 32 then uEscape c.toNat
  else if c.toNat < 128 then [c]
  else if c.toNat < 65536 then uEscape c.toNat
  else
    uEscape (55296 + (c.toNat - 65536) / 1024) ++ uEscape (56320 + (c.toNat - 65536) % 1024)

/-- A JSON string literal, double quotes included. -/
def jsonQuote (s : String) : List Char :=
  '"' :: (s.data.flatMap jsonEscapeChar ++ ['"'])

/-- Comma-separated concatenation of already-serialized items. -/
def jsonCommaSep (ps : List (List Char)) : List Char :=
  (ps.intersperse [',']).flatten

/-! ## SHA-256 over byte lists (bytes are `Nat`s below 256; 32-bit words
are `Nat`s reduced modulo `2 ^ 32`) -/

/-- The SHA-256 round constants. -/
def sha256K : List Nat :=
  [1116352408, 1899447441, 3049323471, 3921009573, 961987163, 1508970993,
   2453635748, 2870763221, 3624381080, 310598401, 607225278, 1426881987,
   1925078388, 2162078206, 2614888103, 3248222580, 3835390401, 4022224774,
   264347078, 604807628, 770255983, 1249150122, 1555081692, 1996064986,
   2554220882, 2821834349, 2952996808, 3210313671, 3336571891, 3584528711,
   113926993, 338241895, 666307205, 773529912, 1294757372, 1396182291,
   1695183700, 1986661051, 2177026350, 2456956037, 2730485921, 2820302411,
   3259730800, 3345764771, 3516065817, 3600352804, 4094571909, 275423344,
   430227734, 506948616, 659060556, 883997877, 958139571, 1322822218,
   1537002063, 1747873779, 1955562222, 2024104815, 2227730452, 2361852424,
   2428436474, 2756734187, 3204031479, 3329325298]

/-- The SHA-256 initial hash value. -/
def sha256H0 : List Nat :=
  [1779033703, 3144134277, 1013904242, 2773480762, 1359893119, 2600822924, 528734635, 1541459225]

/-- 32-bit right rotation. -/
def rotr32 (n x : Nat) : Nat :=
  ((x >>> n) ||| (x <<< (32 - n))) % 4294967296

/-- Big-endian byte decomposition of `n` into `count` bytes. -/
def beBytes (count n : Nat) : List Nat :=
  (List.range count).reverse.map (fun i => (n >>> (8 * i)) % 256)

/-- SHA-256 message padding: append `0x80`, zeros up to 56 mod 64, then the
message bit length as 8 big-endian bytes. -/
def sha256Pad (msg : List Nat) : List Nat :=
  let padZeros := (119 - msg.length % 64) % 64
  msg ++ [0x80] ++ List.replicate padZeros 0 ++ beBytes 8 (msg.length * 8)

/-- Split a byte list into 64-byte chunks. -/
def chunksAux : Nat → List Nat → List (List Nat)
  | 0, _ => []
  | _ + 1, [] => []
  | n + 1, l => l.take 64 :: chunksAux n (l.drop 64)

/-- Split a byte list into 64-byte chunks. -/
def chunks64 (l : List Nat) : List (List Nat) :=
  chunksAux l.length l

/-- 64 bytes into 16 big-endian 32-bit words. -/
def words16 : List Nat → List Nat
  | b0 :: b1 :: b2 :: b3 :: rest =>
    (b0 * 16777216 + b1 * 65536 + b2 * 256 + b3) :: words16 rest
  | _ => []

/-- One step of the message-schedule extension, on the reversed
word list (head = most recent word). -/
def sha256ExtendStep (r : List Nat) : List Nat :=
  let w2 := r.getD 1 0
  let w7 := r.getD 6 0
  let w15 := r.getD 14 0
  let w16 := r.getD 15 0
  let s0 := rotr32 7 w15 ^^^ rotr32 18 w15 ^^^ (w15 >>> 3)
  let s1 := rotr32 17 w2 ^^^ rotr32 19 w2 ^^^ (w2 >>> 10)
  ((w16 + s0 + w7 + s1) % 4294967296) :: r

/-- Iterate the schedule extension. -/
def sha256ExtendAux : Nat → List Nat → List Nat
  | 0, r => r
  | n + 1, r => sha256ExtendAux n (sha256ExtendStep r)

/-- The 64-word message schedule from the 16 block words. -/
def sha256Schedule (ws : List Nat) : List Nat :=
  (sha256ExtendAux 48 ws.reverse).reverse

/-- One SHA-256 compression round; the running state is the 8-word list
`[a, b, c, d, e, f, g, h]`. -/
def sha256CompressStep (st : List Nat) (wk : Nat × Nat) : List Nat :=
  let a := st.getD 0 0
  let b := st.getD 1 0
  let c := st.getD 2 0
  let d := st.getD 3 0
  let e := st.getD 4 0
  let f := st.getD 5 0
  let g := st.getD 6 0
  let h := st.getD 7 0
  let s1 := rotr32 6 e ^^^ rotr32 11 e ^^^ rotr32 25 e
  let ch := (e &&& f) ^^^ ((e ^^^ 4294967295) &&& g)
  let temp1 := (h + s1 + ch + wk.2 + wk.1) % 4294967296
  let s0 := rotr32 2 a ^^^ rotr32 13 a ^^^ rotr32 22 a
  let maj := (a &&& b) ^^^ (a &&& c) ^^^ (b &&& c)
  let temp2 := (s0 + maj) % 4294967296
  [(temp1 + temp2) % 4294967296, a, b, c, (d + temp1) % 4294967296, e, f, g]

/-- Process one 64-byte block. -/
def sha256ProcessBlock (h : List Nat) (chunk : List Nat) : List Nat :=
  let final := List.foldl sha256CompressStep h ((sha256Schedule (words16 chunk)).zip sha256K)
  (h.zip final).map (fun p => (p.1 + p.2) % 4294967296)

/-- SHA-256 digest of a byte list, as 32 bytes. -/
def sha256Bytes (msg : List Nat) : List Nat :=
  (List.foldl sha256ProcessBlock sha256H0 (chunks64 (sha256Pad msg))).flatMap (beBytes 4)

/-- SHA-256 digest of a byte list, as the lowercase hex string returned by
Python's `hashlib.sha256(...).hexdigest()`. -/
def sha256Hex (msg : List Nat) : String :=
  ⟨(sha256Bytes msg).flatMap (fun b => [hexDigitChar (b / 16), hexDigitChar (b % 16)])⟩

/-- UTF-8 encoding of one character (Python's `str.encode('utf-8')`). -/
def utf8EncodeChar (c : Char) : List Nat :=
  let n := c.toNat
  if n < 128 then [n]
  else if n < 2048 then [192 + n / 64, 128 + n % 64]
  else if n < 65536 then [224 + n / 4096, 128 + n / 64 % 64, 128 + n % 64]
  else [240 + n / 262144, 128 + n / 4096 % 64, 128 + n / 64 % 64, 128 + n % 64]

/-! ## The job data model and the Signature Calculator
(`backend/utils.py`, `calculate_job_signature`) -/

/-- The value found under the `code_files` key of a job dictionary: either a
dict mapping file path to content, or (the fallback produced by
`_extract_job_data` when only filenames could be recovered) a plain list of
filenames, which is not a dict. -/
inductive CodeFiles where
  | dict (entries : List (String × String))
  | strlist (files : List String)
deriving DecidableEq, Repr

/-- A job dictionary as consumed by `calculate_job_signature`.  `none`
models an absent key (`dict.get` then supplies the default).
`requester_email`, `created_at` and `uid` ride along in the dictionary but
are never read by the signature calculator. -/
structure JobData where
  name : Option String
  description : Option String
  tags : Option (List String)
  code_files : Option CodeFiles
  requester_email : String
  uid : String
deriving DecidableEq, Repr

/-- Python's `sorted` on a list of strings. -/
def sortStrings (l : List String) : List String :=
  List.insertionSort (· ≤ ·) l

/-- The normalized `signature_data` dictionary built by
`calculate_job_signature`: fixed keys `name`, `description`, `tags`,
`code_files`. -/
structure SigData where
  name : String
  description : String
  tags : List String
  code_files : List (String × String)
deriving DecidableEq, Repr

/-- Construction of `signature_data` from the job dictionary: trim name and
description, sort tags, and — only when the `code_files` value is a dict —
insert its entries in sorted key order (`for filename in
sorted(code_files.keys())`). -/
def signatureData (jd : JobData) : SigData :=
  { name := pyStrip (jd.name.getD "")
    description := pyStrip (jd.description.getD "")
    tags := sortStrings (jd.tags.getD [])
    code_files :=
      match jd.code_files.getD (.dict []) with
      | .dict es => (sortStrings (es.map Prod.fst)).map (fun k => (k, (es.lookup k).getD ""))
      | .strlist _ => [] }

/-- `json.dumps(signature_data, sort_keys=True, separators=(',', ':'))`:
keys in sorted order (`code_files` < `description` < `name` < `tags`), no
whitespace. -/
def serializeSigData (d : SigData) : List Char :=
  ("\x7b\"code_files\":\x7b").data
    ++ jsonCommaSep (d.code_files.map (fun p => jsonQuote p.1 ++ ':' :: jsonQuote p.2))
    ++ ("\x7d,\"description\":").data ++ jsonQuote d.description
    ++ (",\"name\":").data ++ jsonQuote d.name
    ++ (",\"tags\":[").data ++ jsonCommaSep (d.tags.map jsonQuote)
    ++ ("]\x7d").data

/-- `calculate_job_signature` (`backend/utils.py`): normalize, serialize to
canonical JSON, hash with SHA-256, return the lowercase hex digest. -/
def calculate_job_signature (jd : JobData) : String :=
  sha256Hex ((serializeSigData (signatureData jd)).flatMap utf8EncodeChar)

/-! ## Filesystem-as-database primitive -/

/-- Writing one record file keyed by `k`: replaces the record at `k` when
present, creates it otherwise (modulo the directory-listing order, which no
claim observes, this is the create-or-overwrite `write_text`). -/
def fs_write (k : String) (v : α) (dir : List (String × α)) : List (String × α) :=
  dir.filter (fun p => !(p.1 == k)) ++ [(k, v)]

/-! ## History Store and Trust Store records (`backend/utils.py`) -/

/-- The JSON object written by `store_job_in_history`: the job dictionary
plus `signature`, `stored_at` (the source stores `str(Path().absolute())`
there, an environment value) and `status`. -/
structure StoredJob where
  data : JobData
  signature : String
  stored_at : String
  status : String
deriving DecidableEq, Repr

/-- The JSON object written by `mark_job_as_trusted_code`: the history
record plus `marked_as_trusted_at` (again `str(Path().absolute())`) and
`is_trusted_code = True`. -/
structure TrustedRecord where
  base : StoredJob
  marked_as_trusted_at : String
  is_trusted_code : Bool
deriving DecidableEq, Repr

/-- The job-history directory: one record file per signature. -/
abbrev HistoryStore := List (String × StoredJob)

/-- The trusted-code directory: one record file per signature. -/
abbrev TrustedStore := List (String × TrustedRecord)

/-- `store_job_in_history` (`backend/utils.py`): recompute the signature
from the job content, create-or-overwrite the single record file
`{signature}.json` with status `completed`, return the signature.
`storedAt` is the environment value the source stores in `stored_at`. -/
def store_job_in_history (history : HistoryStore) (jd : JobData) (storedAt : String) :
    String × HistoryStore :=
  let job_signature := calculate_job_signature jd
  (job_signature,
   fs_write job_signature
     { data := jd, signature := job_signature, stored_at := storedAt, status := "completed" }
     history)

/-- Outcome of an administrative operation that may raise `HTTPException`. -/
inductive MarkOutcome where
  | ok
  | httpError (status : Nat) (detail : String)
deriving DecidableEq, Repr

/-- `mark_job_as_trusted_code` (`backend/utils.py`): look the signature up
in the job-history directory; if the record file does not exist, raise 404
leaving the trusted-code directory unchanged; otherwise copy the record
into the trusted-code directory with `marked_as_trusted_at` and
`is_trusted_code = True`. -/
def mark_job_as_trusted_code (history : HistoryStore) (trusted : TrustedStore)
    (job_signature markedAt : String) : MarkOutcome × TrustedStore :=
  match List.lookup job_signature history with
  | none => (.httpError 404 "Job not found in history", trusted)
  | some job_data =>
    (.ok,
     fs_write job_signature
       { base := job_data, marked_as_trusted_at := markedAt, is_trusted_code := true }
       trusted)

/-- `is_job_trusted_code` (`backend/utils.py`): compute the incoming job's
signature and look for the record file `{signature}.json` in the
trusted-code directory; return its parsed content when it exists, `None`
otherwise. -/
def is_job_trusted_code (trusted : TrustedStore) (jd : JobData) : Option TrustedRecord :=
  List.lookup (calculate_job_signature jd) trusted

/-! ## Allowlist (`backend/utils.py`) -/

/-- `_email_to_filename`: `email.replace("@", "_at_").replace(".", "_dot_")`. -/
def email_to_filename (email : String) : String :=
  pyReplace (pyReplace email "@" "_at_") "." "_dot_"

/-- `_filename_to_email`: `filename.replace("_at_", "@").replace("_dot_", ".")`. -/
def filename_to_email (filename : String) : String :=
  pyReplace (pyReplace filename "_at_" "@") "_dot_" "."

/-- The administrator-configured default trusted email seeded into an empty
allowlist. -/
def default_email : String := "andrew@openmined.org"

/-- `get_allowlist` (`backend/utils.py`), over the allowlist directory's
current list of filenames.  Returns the email list together with the
directory contents after the call (the seeding path persists the default
entry via `_create_email_file`). -/
def get_allowlist (dirFiles : List String) : List String × List String :=
  if dirFiles.isEmpty then
    ([default_email], dirFiles ++ [email_to_filename default_email])
  else
    (sortStrings (dirFiles.map filename_to_email), dirFiles)

/-- `add_email_to_allowlist` (`backend/utils.py`): no-op when the email's
file already exists, otherwise create it. -/
def add_email_to_allowlist (dirFiles : List String) (email : String) : List String :=
  if dirFiles.contains (email_to_filename email) then dirFiles
  else dirFiles ++ [email_to_filename email]

/-- `is_email_in_allowlist` (`backend/utils.py`): the email's file exists. -/
def is_email_in_allowlist (dirFiles : List String) (email : String) : Bool :=
  dirFiles.contains (email_to_filename email)

/-! ## Decision records

`log_job_decision` is imported by `app.py` and `backend/main.py` from
`backend/utils.py`, but its definition is not part of the sources at hand;
it is modelled from the spec below. -/

/-- One append-only decision log entry.  Booleans in the structured
metadata are rendered the Python way (`"True"`/`"False"`). -/
structure DecisionRecord where
  jobSignature : String
  action : String
  reason : String
  metadata : List (String × String)
deriving DecidableEq, Repr

/-- Modelled from the spec: `log_job_decision` (absent from the given
sources; spec §4.3 `record_decision`) "appends one DecisionRecord; never
overwrites prior decisions for the same job — every call appends a new
entry".  The record's identity field is the job's content signature. -/
def log_job_decision (decisions : List DecisionRecord) (jd : JobData)
    (action reason : String) (metadata : List (String × String)) : List DecisionRecord :=
  decisions ++ [{ jobSignature := calculate_job_signature jd, action := action,
                  reason := reason, metadata := metadata }]

/-! ## The Decision Engine (`src/syft_reviewer_allowlist/app.py`) -/

/-- A pending or completed job as seen through the Job Source, carrying the
job data `_extract_job_data` recovers for it and the outcome the external
`job.approve(...)` call would report. -/
structure CodeJob where
  name : String
  requester_email : String
  uid : String
  jobData : JobData
  approve_success : Bool
deriving DecidableEq, Repr

/-- How `_auto_approve_jobs` classifies one pending job. -/
inductive JobClass where
  | sender
  | trustedCode (r : TrustedRecord)
  | untrusted
deriving DecidableEq, Repr

/-- The per-job trust evaluation of `_auto_approve_jobs`: the allowlist
membership test first; only in its `else` branch is
`is_job_trusted_code` (and hence the signature computation) invoked.  The
boolean records whether `is_job_trusted_code` was invoked for this job. -/
def classify_job (allowlist : List String) (trusted : TrustedStore) (job : CodeJob) :
    JobClass × Bool :=
  if job.requester_email ∈ allowlist then (.sender, false)
  else
    match is_job_trusted_code trusted job.jobData with
    | some r => (.trustedCode r, true)
    | none => (.untrusted, true)

/-- The in-memory, process-local state of `ReviewerAllowlistApp`, together
with the persistent stores the engine writes (decision log, job history). -/
structure EngineState where
  allowlist : List String
  processed_job_ids : List String
  ignored_job_ids : List String
  decisions : List DecisionRecord
  history : HistoryStore

/-- `_refresh_allowlist`: when the freshly loaded list differs from the
cached snapshot, replace the cache and clear the ignored-jobs cache;
otherwise change nothing. -/
def refresh_allowlist (st : EngineState) (new_allowlist : List String) : EngineState :=
  if new_allowlist ≠ st.allowlist then
    { st with allowlist := new_allowlist, ignored_job_ids := [] }
  else st

/-- The ignore reason string logged by `_auto_approve_jobs`. -/
def ignore_reason (job : CodeJob) : String :=
  "Not in allowlist and no trusted code pattern match - sender: " ++ job.requester_email

/-- The decision record logged for a first-time ignored job. -/
def ignoreRecord (job : CodeJob) : DecisionRecord :=
  { jobSignature := calculate_job_signature job.jobData
    action := "ignore"
    reason := ignore_reason job
    metadata := [("auto_processed", "True"), ("ignored_reason", "not_trusted")] }

/-- The decision record logged for a successfully approved trusted-sender
job. -/
def approveSenderRecord (job : CodeJob) (now : String) : DecisionRecord :=
  { jobSignature := calculate_job_signature job.jobData
    action := "approve"
    reason := "Auto-approved (" ++ ("trusted sender (" ++ job.requester_email ++ ")") ++ ") at " ++ now
    metadata := [("success", "True"), ("auto_approved", "True")] }

/-- The classification loop body of `_auto_approve_jobs` restricted to its
state effects: an untrusted job whose uid is not yet in the ignored cache
gets exactly one `ignore` decision logged and its uid added to the cache;
every other case leaves the state unchanged. -/
def ignore_step (trusted : TrustedStore) (st : EngineState) (job : CodeJob) : EngineState :=
  match (classify_job st.allowlist trusted job).1 with
  | .untrusted =>
    if job.uid ∈ st.ignored_job_ids then st
    else
      { st with
        decisions := log_job_decision st.decisions job.jobData "ignore" (ignore_reason job)
          [("auto_processed", "True"), ("ignored_reason", "not_trusted")]
        ignored_job_ids := st.ignored_job_ids ++ [job.uid] }
  | _ => st

/-- `_approve_job`: invoke the Job Source's approval, then log a decision
with action `approve` on success and `failed_approval` on failure.  `now`
is the `datetime.now().isoformat()` timestamp. -/
def approve_job (now : String) (st : EngineState) (job : CodeJob) (reason : String) :
    EngineState :=
  let approval_reason := "Auto-approved (" ++ reason ++ ") at " ++ now
  let action := if job.approve_success then "approve" else "failed_approval"
  { st with
    decisions := log_job_decision st.decisions job.jobData action approval_reason
      [("success", if job.approve_success then "True" else "False"), ("auto_approved", "True")] }

/-- `_auto_approve_jobs`: one classification pass over the pending jobs
(logging first-time ignores), then the approval pass over the
allowlist-approved jobs, then over the trusted-code-approved jobs. -/
def auto_approve_jobs (trusted : TrustedStore) (now : String) (pending : List CodeJob)
    (st : EngineState) : EngineState :=
  let st1 := pending.foldl (ignore_step trusted) st
  let senderJobs := pending.filter (fun j => decide (j.requester_email ∈ st.allowlist))
  let trustedJobs := pending.filter (fun j =>
    !(decide (j.requester_email ∈ st.allowlist)) && (is_job_trusted_code trusted j.jobData).isSome)
  let st2 := senderJobs.foldl
    (fun s j => approve_job now s j ("trusted sender (" ++ j.requester_email ++ ")")) st1
  trustedJobs.foldl
    (fun s j => approve_job now s j ("trusted code pattern (" ++
      (match is_job_trusted_code trusted j.jobData with
       | some r => r.base.signature.take 12
       | none => "unknown".take 12) ++ "...)")) st2

/-- `_cleanup_ignored_jobs_cache`: intersect the ignored cache with the
uids of the currently pending jobs. -/
def cleanup_ignored (pending : List CodeJob) (st : EngineState) : EngineState :=
  { st with ignored_job_ids :=
      st.ignored_job_ids.filter (fun uid => (pending.map CodeJob.uid).contains uid) }

/-- `_store_completed_job_in_history` applied from
`_check_and_store_completed_jobs`: completed jobs not yet processed are
stored in the history and marked processed. -/
def store_completed_step (storedAt : String) (st : EngineState) (job : CodeJob) : EngineState :=
  if job.uid ∈ st.processed_job_ids then st
  else
    { st with
      history := (store_job_in_history st.history job.jobData storedAt).2
      processed_job_ids := st.processed_job_ids ++ [job.uid] }

/-- `_process_cycle`: allowlist refresh every 30th cycle, completed-job
capture every 10th, ignored-cache cleanup every 300th, then the pending-job
evaluation, all keyed on the cycle counter. -/
def process_cycle (trusted : TrustedStore) (new_allowlist : List String)
    (completed pending : List CodeJob) (now storedAt : String) (cycle : Nat)
    (st : EngineState) : EngineState :=
  let st := if cycle % 30 == 0 then refresh_allowlist st new_allowlist else st
  let st := if cycle % 10 == 0 then completed.foldl (store_completed_step storedAt) st else st
  let st := if cycle % 300 == 0 then cleanup_ignored pending st else st
  auto_approve_jobs trusted now pending st

/-- `k` consecutive polling cycles starting at cycle counter `c0`, in a
fixed environment (fixed trusted-code store, fixed job queue, and an
allowlist file whose reload keeps returning `new_allowlist`). -/
def run_cycles (trusted : TrustedStore) (new_allowlist : List String)
    (completed pending : List CodeJob) (now storedAt : String) :
    Nat → Nat → EngineState → EngineState
  | _, 0, st => st
  | c0, k + 1, st =>
    run_cycles trusted new_allowlist completed pending now storedAt (c0 + 1) k
      (process_cycle trusted new_allowlist completed pending now storedAt c0 st)

/-- The number of decision records with action `ignore`. -/
def count_ignore_records (ds : List DecisionRecord) : Nat :=
  (ds.filter (fun d => d.action == "ignore")).length

/-! ## Character-level characterizations of the email/filename encoding
(used to analyse the `_email_to_filename` / `_filename_to_email` round
trip) -/

/-- The per-character effect of `_email_to_filename`: `@` becomes `_at_`,
`.` becomes `_dot_`, everything else is kept. -/
def encChar (c : Char) : List Char :=
  if c = '@' then ['_', 'a', 't', '_'] else if c = '.' then ['_', 'd', 'o', 't', '_'] else [c]

/-- The intermediate form after `_filename_to_email`'s first pass has
decoded the `_at_` tokens back to `@`: only the `.` tokens remain. -/
def encMid (c : Char) : List Char :=
  if c = '.' then ['_', 'd', 'o', 't', '_'] else [c]

/-! ## Concrete fixtures used by witness theorems -/

/-- A small concrete job dictionary (the spec's `{name:"job1", tags:[],
code_files:{"a.py":"x=1"}}` scenario, sent by `b@x.com`). -/
def jdW : JobData :=
  { name := some "job1", description := some "", tags := some [],
    code_files := some (.dict [("a.py", "x=1")]),
    requester_email := "b@x.com", uid := "u1" }

/-- The history record `store_job_in_history` writes for `jdW`. -/
def storedW : StoredJob :=
  { data := jdW, signature := calculate_job_signature jdW,
    stored_at := "/cwd", status := "completed" }

/-- The trusted-code record derived from `storedW`. -/
def recW : TrustedRecord :=
  { base := storedW, marked_as_trusted_at := "/cwd", is_trusted_code := true }

/-- A pending job from an unlisted sender carrying `jdW`. -/
def jobW : CodeJob :=
  { name := "job1", requester_email := "b@x.com", uid := "u1",
    jobData := jdW, approve_success := true }

/-- A pending job from the allowlisted sender `a@x.com`. -/
def jobSenderW : CodeJob :=
  { name := "job1", requester_email := "a@x.com", uid := "u2",
    jobData := { jdW with requester_email := "a@x.com", uid := "u2" },
    approve_success := true }

/-- An engine state whose allowlist is `["a@x.com"]` and whose caches and
logs are empty. -/
def stW : EngineState :=
  { allowlist := ["a@x.com"], processed_job_ids := [], ignored_job_ids := [],
    decisions := [], history := [] }

/-! ## General lemmas about association-list lookup, `fs_write` and
`sortStrings` -/

theorem lookup_eq_none_iff {α : Type} (k : String) (l : List (String × α)) :
    List.lookup k l = none ↔ k ∉ l.map Prod.fst := by
  induction l with
  | nil => simp
  | cons p l ih =>
    obtain ⟨a, b⟩ := p
    by_cases h : k = a
    · subst h
      simp [List.lookup]
    · simp [List.lookup, beq_false_of_ne h, h, ih]

theorem lookup_eq_some_iff {α : Type} {l : List (String × α)}
    (hnd : (l.map Prod.fst).Nodup) (k : String) (v : α) :
    List.lookup k l = some v ↔ (k, v) ∈ l := by
  induction l with
  | nil => simp
  | cons p l ih =>
    obtain ⟨a, b⟩ := p
    simp only [List.map_cons, List.nodup_cons] at hnd
    by_cases h : k = a
    · subst h
      simp only [List.lookup, beq_self_eq_true, List.mem_cons, Prod.mk.injEq, true_and]
      constructor
      · intro hv
        exact Or.inl (Option.some.inj hv).symm
      · rintro (rfl | hmem)
        · rfl
        · exact absurd (List.mem_map_of_mem Prod.fst hmem) hnd.1
    · simp only [List.lookup, beq_false_of_ne h, List.mem_cons, Prod.mk.injEq]
      rw [ih hnd.2]
      constructor
      · exact Or.inr
      · rintro (⟨rfl, _⟩ | hmem)
        · exact absurd rfl h
        · exact hmem

theorem lookup_perm {α : Type} {l₁ l₂ : List (String × α)} (p : l₁.Perm l₂)
    (hnd : (l₁.map Prod.fst).Nodup) (k : String) :
    List.lookup k l₁ = List.lookup k l₂ := by
  induction p with
  | nil => rfl
  | cons x p ih =>
    obtain ⟨a, b⟩ := x
    simp only [List.map_cons, List.nodup_cons] at hnd
    by_cases h : k = a
    · subst h
      simp [List.lookup]
    · simp [List.lookup, beq_false_of_ne h, ih hnd.2]
  | swap x y l =>
    obtain ⟨a, b⟩ := x
    obtain ⟨c, d⟩ := y
    simp only [List.map_cons, List.nodup_cons, List.mem_cons] at hnd
    have hac : c ≠ a := fun h => hnd.1 (Or.inl h)
    by_cases h1 : k = a
    · subst h1
      simp [List.lookup, beq_false_of_ne hac.symm]
    · by_cases h2 : k = c
      · subst h2
        simp [List.lookup, beq_false_of_ne h1]
      · simp [List.lookup, beq_false_of_ne h1, beq_false_of_ne h2]
  | trans p1 p2 ih1 ih2 =>
    have hnd2 := ((p1.map Prod.fst).nodup_iff).mp hnd
    rw [ih1 hnd, ih2 hnd2]

theorem lookup_fs_write_self {α : Type} (k : String) (v : α) (dir : List (String × α)) :
    List.lookup k (fs_write k v dir) = some v := by
  induction dir with
  | nil => simp [fs_write, List.lookup]
  | cons p l ih =>
    obtain ⟨a, b⟩ := p
    by_cases h : a = k
    · subst h
      simpa [fs_write] using ih
    · simpa [fs_write, List.lookup, beq_false_of_ne h, beq_false_of_ne (Ne.symm h)] using ih

theorem lookup_fs_write_ne {α : Type} {k k' : String} (h : k' ≠ k) (v : α)
    (dir : List (String × α)) :
    List.lookup k' (fs_write k v dir) = List.lookup k' dir := by
  induction dir with
  | nil => simp [fs_write, List.lookup, beq_false_of_ne h]
  | cons p l ih =>
    obtain ⟨a, b⟩ := p
    by_cases ha : a = k
    · subst ha
      simpa [fs_write, List.lookup, beq_false_of_ne h] using ih
    · by_cases hk : k' = a
      · subst hk
        simp [fs_write, beq_false_of_ne ha, List.lookup]
      · simpa [fs_write, beq_false_of_ne ha, List.lookup, beq_false_of_ne hk] using ih

theorem fs_write_keys_nodup {α : Type} (k : String) (v : α) {dir : List (String × α)}
    (hnd : (dir.map Prod.fst).Nodup) :
    ((fs_write k v dir).map Prod.fst).Nodup := by
  have hsub : ((dir.filter (fun p => !(p.1 == k))).map Prod.fst).Sublist (dir.map Prod.fst) :=
    (List.filter_sublist dir).map Prod.fst
  have hfil : ((dir.filter (fun p => !(p.1 == k))).map Prod.fst).Nodup := hnd.sublist hsub
  have hnk : k ∉ (dir.filter (fun p => !(p.1 == k))).map Prod.fst := by
    intro hmem
    obtain ⟨p, hp, hpk⟩ := List.mem_map.mp hmem
    have := (List.mem_filter.mp hp).2
    rw [hpk] at this
    simp at this
  simp only [fs_write, List.map_append, List.map_cons, List.map_nil]
  refine List.nodup_append.mpr ⟨hfil, List.nodup_singleton k, ?_⟩
  intro a ha hb
  simp only [List.mem_singleton] at hb
  subst hb
  exact hnk ha

theorem sortStrings_nil : sortStrings [] = [] := rfl

theorem sortStrings_sorted (l : List String) : List.Sorted (· ≤ ·) (sortStrings l) :=
  List.sorted_insertionSort _ l

theorem sortStrings_perm (l : List String) : (sortStrings l).Perm l :=
  List.perm_insertionSort _ l

theorem sortStrings_eq_of_perm {l₁ l₂ : List String} (h : l₁.Perm l₂) :
    sortStrings l₁ = sortStrings l₂ :=
  List.eq_of_perm_of_sorted
    ((sortStrings_perm l₁).trans (h.trans (sortStrings_perm l₂).symm))
    (sortStrings_sorted l₁) (sortStrings_sorted l₂)

/-! ## Claim C9 -/

/-- C9: `calculate_job_signature` incorporates `code_files` into the digest
only when the `code_files` value is a dict; a job whose `code_files` is a
non-dict value (the list-of-filenames fallback of `_extract_job_data`)
hashes as if its `code_files` were empty, so two jobs agreeing on trimmed
name, trimmed description and sorted tags but carrying different
list-valued `code_files` collide to the same signature. -/
theorem c9_nondict_code_files_collide (jd₁ jd₂ : JobData) (files₁ files₂ : List String)
    (hcf₁ : jd₁.code_files = some (.strlist files₁))
    (hcf₂ : jd₂.code_files = some (.strlist files₂))
    (hname : pyStrip (jd₁.name.getD "") = pyStrip (jd₂.name.getD ""))
    (hdesc : pyStrip (jd₁.description.getD "") = pyStrip (jd₂.description.getD ""))
    (htags : sortStrings (jd₁.tags.getD []) = sortStrings (jd₂.tags.getD [])) :
    calculate_job_signature jd₁
        = calculate_job_signature { jd₁ with code_files := some (.dict []) }
    ∧ calculate_job_signature jd₁ = calculate_job_signature jd₂ := by
  have h1 : signatureData jd₁ = signatureData { jd₁ with code_files := some (.dict []) } := by
    simp [signatureData, hcf₁, sortStrings_nil]
  have h2 : signatureData jd₁ = signatureData jd₂ := by
    simp [signatureData, hcf₁, hcf₂, hname, hdesc, htags, sortStrings_nil]
  exact ⟨congrArg (fun d => sha256Hex ((serializeSigData d).flatMap utf8EncodeChar)) h1,
         congrArg (fun d => sha256Hex ((serializeSigData d).flatMap utf8EncodeChar)) h2⟩

/-- Witness for C9 at concrete inputs: two different filename lists
collide. -/
theorem c9_witness :
    calculate_job_signature { jdW with code_files := some (.strlist ["a.py"]) }
      = calculate_job_signature { jdW with code_files := some (.strlist ["b.py", "c.py"]) } :=
  (c9_nondict_code_files_collide { jdW with code_files := some (.strlist ["a.py"]) }
    { jdW with code_files := some (.strlist ["b.py", "c.py"]) }
    ["a.py"] ["b.py", "c.py"] rfl rfl rfl rfl rfl).2

/-! ## Claim C5 -/

/-- C5: the signature is deterministic (identical on repeated calls), is
invariant under permutation of the tags list and under reordering of the
`code_files` dict entries, treats an absent description as the empty string
and absent tags as the empty list, and trims name and description before
hashing. -/
theorem c5_signature_deterministic_normalization_invariant (jd : JobData)
    (tags₁ tags₂ : List String) (es₁ es₂ : List (String × String))
    (hperm : tags₁.Perm tags₂) (hes : es₁.Perm es₂)
    (hnd : (es₁.map Prod.fst).Nodup) :
    calculate_job_signature jd = calculate_job_signature jd
    ∧ (signatureData jd).name = pyStrip (jd.name.getD "")
    ∧ (signatureData jd).description = pyStrip (jd.description.getD "")
    ∧ calculate_job_signature { jd with tags := some tags₁ }
        = calculate_job_signature { jd with tags := some tags₂ }
    ∧ calculate_job_signature { jd with code_files := some (.dict es₁) }
        = calculate_job_signature { jd with code_files := some (.dict es₂) }
    ∧ calculate_job_signature { jd with description := none }
        = calculate_job_signature { jd with description := some "" }
    ∧ calculate_job_signature { jd with tags := none }
        = calculate_job_signature { jd with tags := some [] } := by
  have htags : signatureData { jd with tags := some tags₁ }
      = signatureData { jd with tags := some tags₂ } := by
    simp [signatureData, sortStrings_eq_of_perm hperm]
  have hcf : signatureData { jd with code_files := some (.dict es₁) }
      = signatureData { jd with code_files := some (.dict es₂) } := by
    have hmap : (sortStrings (es₁.map Prod.fst)).map (fun k => (k, (List.lookup k es₁).getD ""))
        = (sortStrings (es₂.map Prod.fst)).map (fun k => (k, (List.lookup k es₂).getD "")) := by
      rw [sortStrings_eq_of_perm (hes.map Prod.fst)]
      exact List.map_congr_left (fun k _ => by rw [lookup_perm hes hnd k])
    simp [signatureData, hmap]
  exact ⟨rfl, rfl, rfl,
    congrArg (fun d => sha256Hex ((serializeSigData d).flatMap utf8EncodeChar)) htags,
    congrArg (fun d => sha256Hex ((serializeSigData d).flatMap utf8EncodeChar)) hcf,
    rfl, rfl⟩

/-- Witness for C5 at concrete inputs: a transposed tag list and a
transposed `code_files` dict produce the same signatures. -/
theorem c5_witness :
    calculate_job_signature { jdW with tags := some ["b", "a"] }
      = calculate_job_signature { jdW with tags := some ["a", "b"] }
    ∧ calculate_job_signature { jdW with code_files := some (.dict [("b.py", "2"), ("a.py", "1")]) }
      = calculate_job_signature { jdW with code_files := some (.dict [("a.py", "1"), ("b.py", "2")]) } := by
  have h := c5_signature_deterministic_normalization_invariant jdW ["b", "a"] ["a", "b"]
    [("b.py", "2"), ("a.py", "1")] [("a.py", "1"), ("b.py", "2")]
    (by decide) (by decide) (by decide)
  exact ⟨h.2.2.2.1, h.2.2.2.2.1⟩

/-! ## Claim C1 -/

/-- C1: `is_job_trusted_code` computes the job's signature and performs an
exact-key lookup in the trusted-code directory: it returns a stored record
exactly when a record keyed by exactly that signature exists, and returns
`None` whenever no record carries that signature key — so any content
difference that changes the signature yields a miss. -/
theorem c1_exact_signature_lookup (trusted : TrustedStore) (jd : JobData)
    (hnd : (trusted.map Prod.fst).Nodup) :
    (∀ r : TrustedRecord,
        is_job_trusted_code trusted jd = some r
          ↔ (calculate_job_signature jd, r) ∈ trusted)
    ∧ (is_job_trusted_code trusted jd = none
        ↔ calculate_job_signature jd ∉ trusted.map Prod.fst) :=
  ⟨fun r => lookup_eq_some_iff hnd (calculate_job_signature jd) r,
   lookup_eq_none_iff (calculate_job_signature jd) trusted⟩

/-- Witness for C1 at concrete inputs: a store keyed by the job's own
signature hits; the empty store misses. -/
theorem c1_witness :
    is_job_trusted_code [(calculate_job_signature jdW, recW)] jdW = some recW
    ∧ is_job_trusted_code ([] : TrustedStore) jdW = none := by
  constructor
  · exact ((c1_exact_signature_lookup [(calculate_job_signature jdW, recW)] jdW
      (by simp)).1 recW).mpr (by simp)
  · exact (c1_exact_signature_lookup [] jdW (by simp)).2.mpr (by simp)

/-! ## Claim C6 -/

/-- C6: `mark_job_as_trusted_code` on a signature absent from the job
history fails with the 404 NotFound error and leaves the trusted-code
collection unchanged; on a signature present in history it reports success
and the trusted-code collection afterwards holds, under that signature, the
history record extended with the marked-as-trusted marker. -/
theorem c6_mark_not_found_leaves_trusted_unchanged (history : HistoryStore)
    (trusted : TrustedStore) (sig markedAt : String) :
    (List.lookup sig history = none →
      mark_job_as_trusted_code history trusted sig markedAt
        = (.httpError 404 "Job not found in history", trusted))
    ∧ ∀ r : StoredJob, List.lookup sig history = some r →
        (mark_job_as_trusted_code history trusted sig markedAt).1 = .ok
        ∧ List.lookup sig (mark_job_as_trusted_code history trusted sig markedAt).2
            = some { base := r, marked_as_trusted_at := markedAt, is_trusted_code := true } := by
  constructor
  · intro h
    simp [mark_job_as_trusted_code, h]
  · intro r h
    simp [mark_job_as_trusted_code, h, lookup_fs_write_self]

/-- Witness for C6 at concrete inputs: the empty history 404s leaving the
trusted store unchanged; a present signature is copied over. -/
theorem c6_witness :
    mark_job_as_trusted_code [] [] "s0" "/cwd"
      = (.httpError 404 "Job not found in history", [])
    ∧ List.lookup "s0" (mark_job_as_trusted_code [("s0", storedW)] [] "s0" "/cwd").2
        = some { base := storedW, marked_as_trusted_at := "/cwd", is_trusted_code := true } := by
  refine ⟨(c6_mark_not_found_leaves_trusted_unchanged [] [] "s0" "/cwd").1 rfl,
    ((c6_mark_not_found_leaves_trusted_unchanged [("s0", storedW)] [] "s0" "/cwd").2
      storedW rfl).2⟩

/-! ## Claim C7 -/

/-- Nodup keys are preserved across any sequence of history stores. -/
theorem foldl_store_keys_nodup (jds : List (JobData × String)) :
    ∀ history : HistoryStore, (history.map Prod.fst).Nodup →
      ((jds.foldl (fun h p => (store_job_in_history h p.1 p.2).2) history).map Prod.fst).Nodup := by
  induction jds with
  | nil => exact fun _ hnd => hnd
  | cons p jds ih => exact fun h hnd => ih _ (fs_write_keys_nodup _ _ hnd)

/-- C7: `store_job_in_history` recomputes the signature from the job
content and returns it, writes-or-overwrites exactly the one record keyed
by that signature with status `completed` (all other keys unchanged), and
any sequence of stores keeps at most one record per signature. -/
theorem c7_store_overwrites_single_record (history : HistoryStore) (jd : JobData)
    (storedAt : String) (hnd : (history.map Prod.fst).Nodup) :
    (store_job_in_history history jd storedAt).1 = calculate_job_signature jd
    ∧ List.lookup (calculate_job_signature jd) (store_job_in_history history jd storedAt).2
        = some { data := jd, signature := calculate_job_signature jd,
                 stored_at := storedAt, status := "completed" }
    ∧ (∀ k, k ≠ calculate_job_signature jd →
        List.lookup k (store_job_in_history history jd storedAt).2 = List.lookup k history)
    ∧ ∀ jds : List (JobData × String),
        ((jds.foldl (fun h p => (store_job_in_history h p.1 p.2).2) history).map Prod.fst).Nodup :=
  ⟨rfl, lookup_fs_write_self _ _ _, fun _ hk => lookup_fs_write_ne hk _ _,
   fun jds => foldl_store_keys_nodup jds history hnd⟩

/-- Witness for C7 at concrete inputs. -/
theorem c7_witness :
    (store_job_in_history [] jdW "/cwd").1 = calculate_job_signature jdW
    ∧ List.lookup (calculate_job_signature jdW) (store_job_in_history [] jdW "/cwd").2
        = some storedW := by
  have h := c7_store_overwrites_single_record [] jdW "/cwd" (by simp)
  exact ⟨h.1, h.2.1⟩

/-! ## Claim C8 -/

/-- C8: `get_allowlist` always returns a lexicographically sorted list; on
an empty directory it seeds the single default trusted email, persists that
entry (a second call reads it back from storage and re-seeds nothing), and
returns exactly that singleton — never the empty list. -/
theorem c8_get_allowlist_sorted_and_seeded (dirFiles : List String) :
    List.Sorted (· ≤ ·) (get_allowlist dirFiles).1
    ∧ (dirFiles = [] →
        (get_allowlist dirFiles).1 = [default_email]
        ∧ (get_allowlist dirFiles).2 = [email_to_filename default_email]
        ∧ get_allowlist (get_allowlist dirFiles).2
            = ([default_email], [email_to_filename default_email])
        ∧ (get_allowlist dirFiles).1 ≠ []) := by
  constructor
  · unfold get_allowlist
    split
    · exact List.sorted_singleton _
    · exact sortStrings_sorted _
  · rintro rfl
    refine ⟨rfl, rfl, by decide, by decide⟩

/-- Witness for C8: the seeding path at the concrete empty directory, and
the sortedness conjunct at a concrete two-entry directory. -/
theorem c8_witness :
    List.Sorted (· ≤ ·) (get_allowlist ["b_at_x", "a_at_y"]).1
    ∧ (get_allowlist []).1 = [default_email] :=
  ⟨(c8_get_allowlist_sorted_and_seeded ["b_at_x", "a_at_y"]).1,
   ((c8_get_allowlist_sorted_and_seeded []).2 rfl).1⟩

/-! ## Engine-state lemmas -/

theorem foldl_proj_const {γ : Type} (proj : EngineState → γ)
    (f : EngineState → CodeJob → EngineState)
    (hf : ∀ s j, proj (f s j) = proj s) :
    ∀ (l : List CodeJob) (st : EngineState), proj (l.foldl f st) = proj st := by
  intro l
  induction l with
  | nil => intro st; rfl
  | cons j l ih => intro st; rw [List.foldl_cons, ih, hf]

theorem ignore_step_allowlist (t : TrustedStore) (st : EngineState) (j : CodeJob) :
    (ignore_step t st j).allowlist = st.allowlist := by
  unfold ignore_step
  split
  · split <;> rfl
  · rfl

theorem ignore_step_processed (t : TrustedStore) (st : EngineState) (j : CodeJob) :
    (ignore_step t st j).processed_job_ids = st.processed_job_ids := by
  unfold ignore_step
  split
  · split <;> rfl
  · rfl

theorem store_completed_step_allowlist (sAt : String) (st : EngineState) (j : CodeJob) :
    (store_completed_step sAt st j).allowlist = st.allowlist := by
  unfold store_completed_step
  split <;> rfl

theorem store_completed_step_decisions (sAt : String) (st : EngineState) (j : CodeJob) :
    (store_completed_step sAt st j).decisions = st.decisions := by
  unfold store_completed_step
  split <;> rfl

theorem store_completed_step_ignored (sAt : String) (st : EngineState) (j : CodeJob) :
    (store_completed_step sAt st j).ignored_job_ids = st.ignored_job_ids := by
  unfold store_completed_step
  split <;> rfl

theorem auto_approve_jobs_allowlist (t : TrustedStore) (now : String)
    (pending : List CodeJob) (st : EngineState) :
    (auto_approve_jobs t now pending st).allowlist = st.allowlist := by
  unfold auto_approve_jobs
  dsimp only
  refine (foldl_proj_const EngineState.allowlist _ ?_ _ _).trans
    ((foldl_proj_const EngineState.allowlist _ ?_ _ _).trans
      (foldl_proj_const EngineState.allowlist _ (ignore_step_allowlist t) _ _)) <;>
  exact fun s j => rfl

theorem refresh_allowlist_allowlist (st : EngineState) (new_allowlist : List String) :
    (refresh_allowlist st new_allowlist).allowlist = new_allowlist := by
  unfold refresh_allowlist
  split
  · rfl
  · rename_i h
    exact (not_not.mp h).symm

theorem refresh_allowlist_eq_self {st : EngineState} {new_allowlist : List String}
    (h : new_allowlist = st.allowlist) :
    refresh_allowlist st new_allowlist = st := by
  unfold refresh_allowlist
  rw [if_neg (not_not_intro h)]

theorem cleanup_ignored_allowlist (pending : List CodeJob) (st : EngineState) :
    (cleanup_ignored pending st).allowlist = st.allowlist := rfl

theorem cleanup_ignored_decisions (pending : List CodeJob) (st : EngineState) :
    (cleanup_ignored pending st).decisions = st.decisions := rfl

/-- The allowlist after a cycle is whatever the (possibly skipped) refresh
left: none of the later cycle stages touches it. -/
theorem process_cycle_allowlist_eq (t : TrustedStore) (new_allowlist : List String)
    (completed pending : List CodeJob) (now sAt : String) (cycle : Nat) (st : EngineState) :
    (process_cycle t new_allowlist completed pending now sAt cycle st).allowlist
      = (if cycle % 30 == 0 then refresh_allowlist st new_allowlist else st).allowlist := by
  unfold process_cycle
  rw [auto_approve_jobs_allowlist]
  split
  · rw [cleanup_ignored_allowlist]
    split
    · rw [foldl_proj_const EngineState.allowlist _ (store_completed_step_allowlist sAt)]
    · rfl
  · split
    · rw [foldl_proj_const EngineState.allowlist _ (store_completed_step_allowlist sAt)]
    · rfl

theorem auto_approve_sender_approved (t : TrustedStore) (now : String) (job : CodeJob)
    (st : EngineState) (hmem : job.requester_email ∈ st.allowlist)
    (hsucc : job.approve_success = true) :
    auto_approve_jobs t now [job] st
      = { st with decisions := st.decisions ++ [approveSenderRecord job now] } := by
  simp [auto_approve_jobs, ignore_step, classify_job, hmem, hsucc, approve_job,
        log_job_decision, approveSenderRecord]

theorem auto_approve_untrusted_first (t : TrustedStore) (now : String) (job : CodeJob)
    (st : EngineState) (hmem : job.requester_email ∉ st.allowlist)
    (hsig : is_job_trusted_code t job.jobData = none)
    (hig : job.uid ∉ st.ignored_job_ids) :
    auto_approve_jobs t now [job] st
      = { st with
          decisions := st.decisions ++ [ignoreRecord job]
          ignored_job_ids := st.ignored_job_ids ++ [job.uid] } := by
  simp [auto_approve_jobs, ignore_step, classify_job, hmem, hsig, hig,
        log_job_decision, ignoreRecord, ignore_reason]

theorem auto_approve_untrusted_repeat (t : TrustedStore) (now : String) (job : CodeJob)
    (st : EngineState) (hmem : job.requester_email ∉ st.allowlist)
    (hsig : is_job_trusted_code t job.jobData = none)
    (hig : job.uid ∈ st.ignored_job_ids) :
    auto_approve_jobs t now [job] st = st := by
  simp [auto_approve_jobs, ignore_step, classify_job, hmem, hsig, hig]

/-! ## Claim C2 -/

/-- C2: in the per-job evaluation the allowlist check comes strictly before
the trusted-code check: for an allowlisted requester the job classifies as
trusted-sender, `is_job_trusted_code` is never invoked (the outcome is
independent of the trusted-code store), and the cycle approves it logging
the trusted-sender reason; only for requesters outside the allowlist is the
signature computed and compared. -/
theorem c2_allowlist_checked_before_trusted_code (t t₂ : TrustedStore) (st : EngineState)
    (job : CodeJob) (now : String)
    (hmem : job.requester_email ∈ st.allowlist) (hsucc : job.approve_success = true) :
    classify_job st.allowlist t job = (.sender, false)
    ∧ classify_job st.allowlist t job = classify_job st.allowlist t₂ job
    ∧ (∀ (al : List String) (t' : TrustedStore) (j : CodeJob),
        j.requester_email ∉ al → (classify_job al t' j).2 = true)
    ∧ auto_approve_jobs t now [job] st
        = { st with decisions := st.decisions ++ [approveSenderRecord job now] } := by
  refine ⟨?_, ?_, ?_, auto_approve_sender_approved t now job st hmem hsucc⟩
  · simp [classify_job, hmem]
  · simp [classify_job, hmem]
  · intro al t' j hj
    unfold classify_job
    rw [if_neg hj]
    rcases hl : is_job_trusted_code t' j.jobData with _ | r <;> simp [hl]

/-- Witness for C2 at concrete inputs: the allowlisted sender `a@x.com` is
classified without consulting the (empty) trusted store and approved with
the trusted-sender reason. -/
theorem c2_witness :
    classify_job stW.allowlist [] jobSenderW = (.sender, false)
    ∧ auto_approve_jobs [] "T0" [jobSenderW] stW
        = { stW with decisions := stW.decisions ++ [approveSenderRecord jobSenderW "T0"] } := by
  have h := c2_allowlist_checked_before_trusted_code [] [] stW jobSenderW "T0" (by decide) rfl
  exact ⟨h.1, h.2.2.2⟩

/-! ## Claim C4 -/

/-- C4: a refresh returning a list different from the cached snapshot
replaces the cache and clears the ignored set; a refresh returning the
cached snapshot changes nothing (ignored set untouched); and the refresh is
applied exactly on cycles whose counter is a multiple of 30 (observable on
the cycle's resulting allowlist). -/
theorem c4_refresh_replaces_and_clears (st : EngineState) (new_allowlist : List String)
    (t : TrustedStore) (completed pending : List CodeJob) (now sAt : String) (cycle : Nat) :
    (new_allowlist ≠ st.allowlist →
      refresh_allowlist st new_allowlist
        = { st with allowlist := new_allowlist, ignored_job_ids := [] })
    ∧ (new_allowlist = st.allowlist → refresh_allowlist st new_allowlist = st)
    ∧ (cycle % 30 = 0 →
        (process_cycle t new_allowlist completed pending now sAt cycle st).allowlist
          = new_allowlist)
    ∧ (cycle % 30 ≠ 0 →
        (process_cycle t new_allowlist completed pending now sAt cycle st).allowlist
          = st.allowlist) := by
  refine ⟨?_, ?_, ?_, ?_⟩
  · intro h
    unfold refresh_allowlist
    rw [if_pos h]
  · intro h
    exact refresh_allowlist_eq_self h
  · intro h
    rw [process_cycle_allowlist_eq, if_pos (beq_iff_eq.mpr h), refresh_allowlist_allowlist]
  · intro h
    rw [process_cycle_allowlist_eq, if_neg (fun hb => h (beq_iff_eq.mp hb))]

/-- Witness for C4 at concrete inputs: a differing reload replaces and
clears; an identical reload is a no-op; cycle 30 applies the refresh and
cycle 1 does not. -/
theorem c4_witness :
    refresh_allowlist stW ["b@y.com"]
      = { stW with allowlist := ["b@y.com"], ignored_job_ids := [] }
    ∧ refresh_allowlist stW ["a@x.com"] = stW
    ∧ (process_cycle [] ["b@y.com"] [] [] "T0" "/cwd" 30 stW).allowlist = ["b@y.com"]
    ∧ (process_cycle [] ["b@y.com"] [] [] "T0" "/cwd" 1 stW).allowlist = stW.allowlist := by
  have h30 := c4_refresh_replaces_and_clears stW ["b@y.com"] [] [] [] "T0" "/cwd" 30
  have h1 := c4_refresh_replaces_and_clears stW ["b@y.com"] [] [] [] "T0" "/cwd" 1
  have he := c4_refresh_replaces_and_clears stW ["a@x.com"] [] [] [] "T0" "/cwd" 0
  exact ⟨h30.1 (by decide), he.2.1 (by decide), h30.2.2.1 (by decide), h1.2.2.2 (by decide)⟩

/-! ## Claim C3 -/

theorem count_ignore_append_ignoreRecord (ds : List DecisionRecord) (job : CodeJob) :
    count_ignore_records (ds ++ [ignoreRecord job]) = count_ignore_records ds + 1 := by
  simp [count_ignore_records, List.filter_append, ignoreRecord]

/-- Within one trust-state epoch (the reload keeps returning the cached
allowlist) a cycle is the pending-job evaluation applied to a state with
unchanged allowlist and decision log, and an ignored set at most filtered
down to still-pending uids. -/
theorem process_cycle_same_allowlist (t : TrustedStore) (completed pending : List CodeJob)
    (now sAt : String) (cycle : Nat) (st : EngineState) :
    ∃ mid : EngineState,
      process_cycle t st.allowlist completed pending now sAt cycle st
        = auto_approve_jobs t now pending mid
      ∧ mid.allowlist = st.allowlist
      ∧ mid.decisions = st.decisions
      ∧ mid.ignored_job_ids = (if cycle % 300 == 0
          then st.ignored_job_ids.filter (fun uid => (pending.map CodeJob.uid).contains uid)
          else st.ignored_job_ids) := by
  unfold process_cycle
  dsimp only
  have h1 : (if (cycle % 30 == 0) = true then refresh_allowlist st st.allowlist else st)
      = st := by
    split
    · exact refresh_allowlist_eq_self rfl
    · rfl
  rw [h1]
  refine ⟨_, rfl, ?_, ?_, ?_⟩
  · split
    · rw [cleanup_ignored_allowlist]
      split
      · exact foldl_proj_const EngineState.allowlist _ (store_completed_step_allowlist sAt) _ _
      · rfl
    · split
      · exact foldl_proj_const EngineState.allowlist _ (store_completed_step_allowlist sAt) _ _
      · rfl
  · split
    · rw [cleanup_ignored_decisions]
      split
      · exact foldl_proj_const EngineState.decisions _ (store_completed_step_decisions sAt) _ _
      · rfl
    · split
      · exact foldl_proj_const EngineState.decisions _ (store_completed_step_decisions sAt) _ _
      · rfl
  · split
    · unfold cleanup_ignored
      dsimp only
      split
      · rw [foldl_proj_const EngineState.ignored_job_ids _ (store_completed_step_ignored sAt) _ _]
      · rfl
    · split
      · exact foldl_proj_const EngineState.ignored_job_ids _ (store_completed_step_ignored sAt) _ _
      · rfl

theorem process_cycle_untrusted_first (t : TrustedStore) (al0 : List String)
    (completed : List CodeJob) (job : CodeJob) (now sAt : String) (cycle : Nat)
    (st : EngineState) (hal : st.allowlist = al0)
    (hmem : job.requester_email ∉ al0)
    (hsig : is_job_trusted_code t job.jobData = none)
    (hig : job.uid ∉ st.ignored_job_ids) :
    (process_cycle t al0 completed [job] now sAt cycle st).allowlist = al0
    ∧ (process_cycle t al0 completed [job] now sAt cycle st).decisions
        = st.decisions ++ [ignoreRecord job]
    ∧ job.uid ∈ (process_cycle t al0 completed [job] now sAt cycle st).ignored_job_ids := by
  subst hal
  obtain ⟨mid, heq, hmal, hmdec, hmig⟩ :=
    process_cycle_same_allowlist t completed [job] now sAt cycle st
  have hig' : job.uid ∉ mid.ignored_job_ids := by
    rw [hmig]
    split
    · intro hmem'
      exact hig (List.mem_filter.mp hmem').1
    · exact hig
  have hmem' : job.requester_email ∉ mid.allowlist := by
    rw [hmal]
    exact hmem
  rw [heq, auto_approve_untrusted_first t now job mid hmem' hsig hig']
  refine ⟨hmal, ?_, ?_⟩
  · show mid.decisions ++ [ignoreRecord job] = st.decisions ++ [ignoreRecord job]
    rw [hmdec]
  · exact List.mem_append_right _ (List.mem_singleton_self _)

theorem process_cycle_untrusted_repeat (t : TrustedStore) (al0 : List String)
    (completed : List CodeJob) (job : CodeJob) (now sAt : String) (cycle : Nat)
    (st : EngineState) (hal : st.allowlist = al0)
    (hmem : job.requester_email ∉ al0)
    (hsig : is_job_trusted_code t job.jobData = none)
    (hig : job.uid ∈ st.ignored_job_ids) :
    (process_cycle t al0 completed [job] now sAt cycle st).allowlist = al0
    ∧ (process_cycle t al0 completed [job] now sAt cycle st).decisions = st.decisions
    ∧ job.uid ∈ (process_cycle t al0 completed [job] now sAt cycle st).ignored_job_ids := by
  subst hal
  obtain ⟨mid, heq, hmal, hmdec, hmig⟩ :=
    process_cycle_same_allowlist t completed [job] now sAt cycle st
  have hig' : job.uid ∈ mid.ignored_job_ids := by
    rw [hmig]
    split
    · exact List.mem_filter.mpr ⟨hig, by simp⟩
    · exact hig
  have hmem' : job.requester_email ∉ mid.allowlist := by
    rw [hmal]
    exact hmem
  rw [heq, auto_approve_untrusted_repeat t now job mid hmem' hsig hig']
  exact ⟨hmal, hmdec, hig'⟩

theorem run_cycles_preserves_ignored (t : TrustedStore) (al0 : List String)
    (completed : List CodeJob) (job : CodeJob) (now sAt : String)
    (hmem : job.requester_email ∉ al0)
    (hsig : is_job_trusted_code t job.jobData = none) :
    ∀ (k c0 : Nat) (st : EngineState), st.allowlist = al0 → job.uid ∈ st.ignored_job_ids →
      (run_cycles t al0 completed [job] now sAt c0 k st).allowlist = al0
      ∧ (run_cycles t al0 completed [job] now sAt c0 k st).decisions = st.decisions
      ∧ job.uid ∈ (run_cycles t al0 completed [job] now sAt c0 k st).ignored_job_ids := by
  intro k
  induction k with
  | zero => exact fun c0 st h1 h2 => ⟨h1, rfl, h2⟩
  | succ k ih =>
    intro c0 st h1 h2
    have hc := process_cycle_untrusted_repeat t al0 completed job now sAt c0 st h1 hmem hsig h2
    have hr := ih (c0 + 1) (process_cycle t al0 completed [job] now sAt c0 st) hc.1 hc.2.2
    simp only [run_cycles]
    exact ⟨hr.1, hr.2.1.trans hc.2.1, hr.2.2⟩

/-- C3: a job that stays pending and untrusted (sender outside the
allowlist, signature matching no trusted-code record) across any number
`k ≥ 1` of consecutive cycles of one trust-state epoch gets exactly one
`ignore` decision record: the first cycle logs it and caches the uid, every
later cycle logs nothing for it. -/
theorem c3_one_ignore_record_per_epoch (t : TrustedStore) (job : CodeJob)
    (al0 ig0 pr0 : List String) (d0 : List DecisionRecord) (h0 : HistoryStore)
    (completed : List CodeJob) (now sAt : String) (c0 k : Nat) (hk : 1 ≤ k)
    (hmem : job.requester_email ∉ al0)
    (hsig : calculate_job_signature job.jobData ∉ t.map Prod.fst)
    (hig : job.uid ∉ ig0) :
    count_ignore_records ((run_cycles t al0 completed [job] now sAt c0 k
        { allowlist := al0, processed_job_ids := pr0, ignored_job_ids := ig0,
          decisions := d0, history := h0 }).decisions)
      = count_ignore_records d0 + 1
    ∧ job.uid ∈ (run_cycles t al0 completed [job] now sAt c0 k
        { allowlist := al0, processed_job_ids := pr0, ignored_job_ids := ig0,
          decisions := d0, history := h0 }).ignored_job_ids := by
  obtain ⟨k', rfl⟩ : ∃ k', k = k' + 1 := ⟨k - 1, by omega⟩
  have hsig' : is_job_trusted_code t job.jobData = none := (lookup_eq_none_iff _ _).mpr hsig
  simp only [run_cycles]
  have hfirst := process_cycle_untrusted_first t al0 completed job now sAt c0
      { allowlist := al0, processed_job_ids := pr0, ignored_job_ids := ig0,
        decisions := d0, history := h0 } rfl hmem hsig' hig
  have hrest := run_cycles_preserves_ignored t al0 completed job now sAt hmem hsig'
      k' (c0 + 1) (process_cycle t al0 completed [job] now sAt c0
        { allowlist := al0, processed_job_ids := pr0, ignored_job_ids := ig0,
          decisions := d0, history := h0 })
      hfirst.1 hfirst.2.2
  constructor
  · rw [hrest.2.1, hfirst.2.1, count_ignore_append_ignoreRecord]
  · exact hrest.2.2

/-- Witness for C3 at concrete inputs: 5 consecutive cycles over the
pending untrusted job produce exactly one ignore record. -/
theorem c3_witness :
    count_ignore_records ((run_cycles [] ["a@x.com"] [] [jobW] "T0" "/cwd" 0 5
        { allowlist := ["a@x.com"], processed_job_ids := [], ignored_job_ids := [],
          decisions := [], history := [] }).decisions) = 1
    ∧ jobW.uid ∈ (run_cycles [] ["a@x.com"] [] [jobW] "T0" "/cwd" 0 5
        { allowlist := ["a@x.com"], processed_job_ids := [], ignored_job_ids := [],
          decisions := [], history := [] }).ignored_job_ids := by
  have h := c3_one_ignore_record_per_epoch [] jobW ["a@x.com"] [] [] [] [] [] "T0" "/cwd" 0 5
      (by omega) (by decide) (by simp) (by simp)
  exact ⟨h.1, h.2⟩

/-! ## Claim C10: the email/filename encoding round trip -/

theorem flatMap_cons_eq {α β : Type} (f : α → List β) (a : α) (l : List α) :
    (a :: l).flatMap f = f a ++ l.flatMap f := rfl

theorem flatMap_append_eq {α β : Type} (f : α → List β) (l₁ l₂ : List α) :
    (l₁ ++ l₂).flatMap f = l₁.flatMap f ++ l₂.flatMap f := by
  induction l₁ with
  | nil => rfl
  | cons a l ih => simp [flatMap_cons_eq, ih]

theorem flatMap_flatMap_eq {α β γ : Type} (f : α → List β) (g : β → List γ) (l : List α) :
    (l.flatMap f).flatMap g = l.flatMap (fun a => (f a).flatMap g) := by
  induction l with
  | nil => rfl
  | cons a l ih => simp [flatMap_cons_eq, flatMap_append_eq, ih]

theorem listStartsWith_append_self (p r : List Char) :
    listStartsWith p (p ++ r) = true := by
  induction p with
  | nil => rfl
  | cons c cs ih => simp [listStartsWith, ih]

theorem replaceFuel_cons_nomatch {pat repl : List Char} {c : Char} {cs : List Char}
    (h : listStartsWith pat (c :: cs) = false) (n : Nat) :
    replaceFuel pat repl (n + 1) (c :: cs) = c :: replaceFuel pat repl n cs := by
  simp [replaceFuel, h]

theorem replaceFuel_cons_match {pat repl : List Char} {c : Char} {cs : List Char}
    (h : listStartsWith pat (c :: cs) = true) (n : Nat) :
    replaceFuel pat repl (n + 1) (c :: cs)
      = repl ++ replaceFuel pat repl n ((c :: cs).drop pat.length) := by
  simp [replaceFuel, h]

theorem scan_token_match (pat repl rest : List Char) (hne : pat ≠ []) (m : Nat) :
    replaceFuel pat repl (m + 1) (pat ++ rest) = repl ++ replaceFuel pat repl m rest := by
  cases pat with
  | nil => exact absurd rfl hne
  | cons p ps =>
    rw [List.cons_append,
        replaceFuel_cons_match (by rw [← List.cons_append]; exact listStartsWith_append_self _ _) m]
    rw [← List.cons_append, List.drop_left]

theorem scan_dot_token (repl rest : List Char)
    (hrest : listStartsWith ['a', 't', '_'] rest = false) (m : Nat) :
    replaceFuel ['_', 'a', 't', '_'] repl (m + 1 + 1 + 1 + 1 + 1)
        ('_' :: 'd' :: 'o' :: 't' :: '_' :: rest)
      = '_' :: 'd' :: 'o' :: 't' :: '_' :: replaceFuel ['_', 'a', 't', '_'] repl m rest := by
  have h5 : listStartsWith ['_', 'a', 't', '_'] ('_' :: rest) = false := by
    simp [listStartsWith, hrest]
  rw [replaceFuel_cons_nomatch (by simp [listStartsWith]) _,
      replaceFuel_cons_nomatch (by simp [listStartsWith]) _,
      replaceFuel_cons_nomatch (by simp [listStartsWith]) _,
      replaceFuel_cons_nomatch (by simp [listStartsWith]) _,
      replaceFuel_cons_nomatch h5 _]

theorem replaceFuel_single (c : Char) (repl : List Char) :
    ∀ (s : List Char) (n : Nat), s.length ≤ n →
      replaceFuel [c] repl n s = s.flatMap (fun d => if d = c then repl else [d]) := by
  intro s
  induction s with
  | nil => intro n _; cases n <;> rfl
  | cons d cs ih =>
    intro n h
    obtain ⟨m, rfl⟩ : ∃ m, n = m + 1 := ⟨n - 1, by simp only [List.length_append, List.length_cons, List.length_nil] at h; omega⟩
    have hm : cs.length ≤ m := by simp only [List.length_append, List.length_cons, List.length_nil] at h; omega
    by_cases hd : d = c
    · subst hd
      rw [replaceFuel_cons_match (by simp [listStartsWith]) m]
      simp [flatMap_cons_eq, ih m hm]
    · rw [replaceFuel_cons_nomatch (by simp [listStartsWith, beq_false_of_ne (Ne.symm hd)]) m]
      simp [flatMap_cons_eq, hd, ih m hm]

/-- `_email_to_filename` is exactly the character-wise encoding. -/
theorem email_to_filename_eq (e : String) :
    email_to_filename e = ⟨e.data.flatMap encChar⟩ := by
  unfold email_to_filename pyReplace
  rw [if_neg (show ¬ (("." : String).data.isEmpty = true) by decide),
      if_neg (show ¬ (("@" : String).data.isEmpty = true) by decide)]
  dsimp only
  rw [replaceFuel_single '@' ['_', 'a', 't', '_'] e.data e.data.length (le_refl _)]
  rw [replaceFuel_single '.' ['_', 'd', 'o', 't', '_'] _ _ (le_refl _)]
  rw [flatMap_flatMap_eq]
  have hcomp : ∀ c : Char,
      ((fun d => if d = '@' then ['_', 'a', 't', '_'] else [d]) c).flatMap
          (fun d => if d = '.' then ['_', 'd', 'o', 't', '_'] else [d])
        = encChar c := by
    intro c
    by_cases h1 : c = '@'
    · subst h1
      decide
    · by_cases h2 : c = '.'
      · subst h2
        decide
      · simp [flatMap_cons_eq, encChar, h1, h2]
  simp only [hcomp]

theorem hasSub_cons_false {pat : List Char} {c : Char} {cs : List Char}
    (h : hasSub pat (c :: cs) = false) :
    listStartsWith pat (c :: cs) = false ∧ hasSub pat cs = false := by
  simpa [hasSub] using h

theorem flatMap_not_t_start (cs : List Char) (h : listStartsWith ['t'] cs = false) :
    listStartsWith ['t', '_'] (cs.flatMap encChar) = false := by
  cases cs with
  | nil => rfl
  | cons c2 cs2 =>
    by_cases h2 : c2 = '@'
    · subst h2
      simp [flatMap_cons_eq, encChar, listStartsWith]
    · by_cases h3 : c2 = '.'
      · subst h3
        simp [flatMap_cons_eq, encChar, listStartsWith]
      · have hne : c2 ≠ 't' := by
          intro he
          subst he
          simp [listStartsWith] at h
        simp [flatMap_cons_eq, encChar, h2, h3, listStartsWith, beq_false_of_ne (Ne.symm hne)]

theorem no_spurious_at_start (cs : List Char) (h : hasSub ['a', 't'] cs = false) :
    listStartsWith ['a', 't', '_'] (cs.flatMap encChar) = false := by
  cases cs with
  | nil => rfl
  | cons c cs2 =>
    by_cases hc : c = '@'
    · subst hc
      simp [flatMap_cons_eq, encChar, listStartsWith]
    · by_cases hd : c = '.'
      · subst hd
        simp [flatMap_cons_eq, encChar, listStartsWith]
      · by_cases ha : c = 'a'
        · subst ha
          have hts : listStartsWith ['t'] cs2 = false := by
            have := (hasSub_cons_false h).1
            simpa [listStartsWith] using this
          have ht := flatMap_not_t_start cs2 hts
          rw [flatMap_cons_eq, show encChar 'a' = ['a'] from rfl, List.singleton_append]
          simp only [listStartsWith]
          rw [ht]
          simp
        · simp [flatMap_cons_eq, encChar, hc, hd, listStartsWith,
                beq_false_of_ne (Ne.symm ha)]

/-- Decoding pass 1 (`replace("_at_", "@")`) on an encoded email whose
original contains no underscore and no `at` substring restores exactly the
`@`s. -/
theorem decode_at (cs : List Char) (hu : '_' ∉ cs) (hat : hasSub ['a', 't'] cs = false) :
    ∀ n, (cs.flatMap encChar).length ≤ n →
      replaceFuel ['_', 'a', 't', '_'] ['@'] n (cs.flatMap encChar) = cs.flatMap encMid := by
  induction cs with
  | nil => intro n _; cases n <;> rfl
  | cons c cs ih =>
    intro n h
    have hu2 : '_' ∉ cs := fun hx => hu (List.mem_cons_of_mem _ hx)
    have hat2 : hasSub ['a', 't'] cs = false := (hasSub_cons_false hat).2
    have hcu : c ≠ '_' := fun he => hu (he ▸ List.mem_cons_self c cs)
    by_cases hc : c = '@'
    · subst hc
      rw [flatMap_cons_eq, show encChar '@' = ['_', 'a', 't', '_'] from rfl] at h ⊢
      rw [flatMap_cons_eq, show encMid '@' = ['@'] from rfl]
      obtain ⟨m, rfl⟩ : ∃ m, n = m + 1 := ⟨n - 1, by simp only [List.length_append, List.length_cons, List.length_nil] at h; omega⟩
      rw [scan_token_match ['_', 'a', 't', '_'] ['@'] (cs.flatMap encChar) (by decide) m]
      rw [ih hu2 hat2 m (by simp only [List.length_append, List.length_cons, List.length_nil] at h; omega)]
    · by_cases hd : c = '.'
      · subst hd
        rw [flatMap_cons_eq, show encChar '.' = ['_', 'd', 'o', 't', '_'] from rfl] at h ⊢
        rw [flatMap_cons_eq, show encMid '.' = ['_', 'd', 'o', 't', '_'] from rfl]
        obtain ⟨m, rfl⟩ : ∃ m, n = m + 1 + 1 + 1 + 1 + 1 := ⟨n - 5, by simp only [List.length_append, List.length_cons, List.length_nil] at h; omega⟩
        rw [show (['_', 'd', 'o', 't', '_'] ++ cs.flatMap encChar : List Char)
              = '_' :: 'd' :: 'o' :: 't' :: '_' :: cs.flatMap encChar from rfl] at h ⊢
        rw [scan_dot_token ['@'] (cs.flatMap encChar) (no_spurious_at_start cs hat2) m]
        rw [ih hu2 hat2 m (by simp only [List.length_append, List.length_cons, List.length_nil] at h; omega)]
        rfl
      · have hec : encChar c = [c] := by simp [encChar, hc, hd]
        have hem : encMid c = [c] := by simp [encMid, hd]
        rw [flatMap_cons_eq, hec] at h ⊢
        rw [flatMap_cons_eq, hem]
        obtain ⟨m, rfl⟩ : ∃ m, n = m + 1 := ⟨n - 1, by simp only [List.length_append, List.length_cons, List.length_nil] at h; omega⟩
        rw [show ([c] ++ cs.flatMap encChar : List Char) = c :: cs.flatMap encChar from rfl] at h ⊢
        rw [replaceFuel_cons_nomatch
              (by simp [listStartsWith, beq_false_of_ne (Ne.symm hcu)]) m]
        rw [ih hu2 hat2 m (by simp only [List.length_append, List.length_cons, List.length_nil] at h; omega)]
        rfl

/-- Decoding pass 2 (`replace("_dot_", ".")`) then restores the `.`s. -/
theorem decode_dot (cs : List Char) (hu : '_' ∉ cs) :
    ∀ n, (cs.flatMap encMid).length ≤ n →
      replaceFuel ['_', 'd', 'o', 't', '_'] ['.'] n (cs.flatMap encMid) = cs := by
  induction cs with
  | nil => intro n _; cases n <;> rfl
  | cons c cs ih =>
    intro n h
    have hu2 : '_' ∉ cs := fun hx => hu (List.mem_cons_of_mem _ hx)
    have hcu : c ≠ '_' := fun he => hu (he ▸ List.mem_cons_self c cs)
    by_cases hd : c = '.'
    · subst hd
      rw [flatMap_cons_eq, show encMid '.' = ['_', 'd', 'o', 't', '_'] from rfl] at h ⊢
      obtain ⟨m, rfl⟩ : ∃ m, n = m + 1 := ⟨n - 1, by simp only [List.length_append, List.length_cons, List.length_nil] at h; omega⟩
      rw [scan_token_match ['_', 'd', 'o', 't', '_'] ['.'] (cs.flatMap encMid) (by decide) m]
      rw [ih hu2 m (by simp only [List.length_append, List.length_cons, List.length_nil] at h; omega)]
      rfl
    · have hem : encMid c = [c] := by simp [encMid, hd]
      rw [flatMap_cons_eq, hem] at h ⊢
      obtain ⟨m, rfl⟩ : ∃ m, n = m + 1 := ⟨n - 1, by simp only [List.length_append, List.length_cons, List.length_nil] at h; omega⟩
      rw [show ([c] ++ cs.flatMap encMid : List Char) = c :: cs.flatMap encMid from rfl] at h ⊢
      rw [replaceFuel_cons_nomatch
            (by simp [listStartsWith, beq_false_of_ne (Ne.symm hcu)]) m]
      rw [ih hu2 m (by simp only [List.length_append, List.length_cons, List.length_nil] at h; omega)]

/-- For an email with no underscore and no `at` substring the filename
round trip is the identity. -/
theorem roundtrip_of_safe (e : String) (hu : '_' ∉ e.data)
    (hat : hasSub ['a', 't'] e.data = false) :
    filename_to_email (email_to_filename e) = e := by
  rw [email_to_filename_eq]
  unfold filename_to_email pyReplace
  rw [if_neg (show ¬ (("_dot_" : String).data.isEmpty = true) by decide),
      if_neg (show ¬ (("_at_" : String).data.isEmpty = true) by decide)]
  dsimp only
  rw [decode_at e.data hu hat _ (le_refl _)]
  rw [decode_dot e.data hu _ (le_refl _)]

/-- Counterexample to C10 as stated: the string `".at_x"` contains neither
the substring `_at_` nor `_dot_`, yet
`_filename_to_email(_email_to_filename(".at_x"))` is `"_dot@x"`, not
`".at_x"` — the `.`-token's trailing underscore fuses with the following
`at_` into a spurious `_at_` match during decoding. -/
theorem c10_counterexample :
    hasSub ("_at_" : String).data (".at_x" : String).data = false
    ∧ hasSub ("_dot_" : String).data (".at_x" : String).data = false
    ∧ filename_to_email (email_to_filename ".at_x") ≠ ".at_x" := by
  decide

/-- C10 amended: the encoding round trip is the identity for every email
containing no underscore and no occurrence of the substring `at` (the
claim's weaker condition — absence of `_at_` and `_dot_` — is refuted by
`c10_counterexample`); and for some emails containing those substrings,
e.g. `"x_at_y@z.com"`, the round trip returns a different string, so
`get_allowlist` returns an email differing from the one added while
`is_email_in_allowlist` on the original still returns true. -/
theorem c10_amended_roundtrip (e : String) (hu : '_' ∉ e.data)
    (hat : hasSub ['a', 't'] e.data = false) :
    filename_to_email (email_to_filename e) = e
    ∧ filename_to_email (email_to_filename "x_at_y@z.com") = "x@y@z.com"
    ∧ "x@y@z.com" ≠ "x_at_y@z.com"
    ∧ is_email_in_allowlist (add_email_to_allowlist [] "x_at_y@z.com") "x_at_y@z.com" = true
    ∧ (get_allowlist (add_email_to_allowlist [] "x_at_y@z.com")).1 = ["x@y@z.com"] :=
  ⟨roundtrip_of_safe e hu hat, by decide, by decide, by decide, by decide⟩

/-- Witness for the amended C10 at a concrete safe email. -/
theorem c10_witness :
    filename_to_email (email_to_filename "a@b.c") = "a@b.c" :=
  (c10_amended_roundtrip "a@b.c" (by decide) (by decide)).1
